import Mathlib

set_option maxRecDepth 8000

/-!
Verification of a regex-to-automaton compiler: a rewindable character cursor,
a recursive-descent parser, a Thompson NFA fragment algebra, and the subset
construction from NFA to DFA.  Every definition mirrors the source program
faithfully; iteration that the source performs with unbounded `while` loops is
modelled with an explicit fuel parameter, `none` meaning the fuel ran out (the
source loops always terminate, so every actual run is captured by some fuel).
Machine-level caveats: Python string indices may go negative, so cursor
positions are `Int`; Python `set` iteration order is implementation-defined,
so the one place it is observable (`epsilon_closure`'s later rounds) is
realized by a fixed canonical order, and every theorem relying on it is
evaluated only where at most one element is involved.
-/

/-- Insertion of an element into a list ordered by `le`. -/
def insertLe {α : Type} (le : α → α → Bool) (x : α) : List α → List α
  | [] => [x]
  | y :: ys => if le x y then x :: y :: ys else y :: insertLe le x ys

/-- Insertion sort, modelling the Python `sorted(...)` builtin (for the
element types used here the order is total, so any correct sort agrees). -/
def sortLe {α : Type} (le : α → α → Bool) : List α → List α
  | [] => []
  | x :: xs => insertLe le x (sortLe le xs)

/-- Order on `Nat` used for sorting state lists. -/
def natLe (a b : Nat) : Bool := a ≤ b

/-- Order on transition labels: the Python label is a string, the empty
string (epsilon, `none` here) sorts before every one-character label, and
characters sort by code point. -/
def labelLe : Option Char → Option Char → Bool
  | none, _ => true
  | some _, none => false
  | some a, some b => a ≤ b

/-- Removal of the last element of a list, modelling Python `list.pop()`
(returns the remaining front part and the popped element). -/
def popLast {α : Type} : List α → Option (List α × α)
  | [] => none
  | [x] => some ([], x)
  | x :: y :: ys =>
    match popLast (y :: ys) with
    | none => none
    | some (front, last) => some (x :: front, last)

/-- Position of the first occurrence of an element, modelling Python
`list.index` (only ever used when the element is present). -/
def pyListIndex {α : Type} [DecidableEq α] : List α → α → Nat
  | [], _ => 0
  | x :: xs, a => if x = a then 0 else pyListIndex xs a + 1

/-- A labeled transition: `on` is `some c` for an input character and `none`
for epsilon (the source uses the empty string for epsilon). -/
structure Transition where
  lab : Option Char
  source : Nat
  dest : Nat
deriving DecidableEq, Repr

/-- The NFA value of the source: a transition list, one start state and one
accept (`term`) state. -/
structure PyNFA where
  transitions : List Transition
  start : Nat
  term : Nat
deriving DecidableEq, Repr

/-- The DFA value of the source: a transition list, a start state and a list
of accept (`term`) state indices. -/
structure PyDFA where
  transitions : List Transition
  start : Nat
  term : List Nat
deriving DecidableEq, Repr

/-- Sorted list of destinations reachable from `nodes` by one transition
labeled exactly `on` (`NFA.move_on`). -/
def PyNFA.move_on (n : PyNFA) (nodes : List Nat) (lab : Option Char) : List Nat :=
  sortLe natLe ((n.transitions.filter
    (fun t => decide (t.lab = lab ∧ t.source ∈ nodes))).map (fun t => t.dest))

/-- Sorted deduplicated list of labels appearing on transitions out of
`nodes` (`NFA.get_moves_for_nodes`). -/
def PyNFA.get_moves_for_nodes (n : PyNFA) (nodes : List Nat) : List (Option Char) :=
  sortLe labelLe (((n.transitions.filter
    (fun t => decide (t.source ∈ nodes))).map (fun t => t.lab)).dedup)

/-- Iteration order chosen for the set difference
`set(move_on(...)) - set(fixed_point)` of the source; CPython's set order is
implementation-defined, and no theorem below depends on this choice. -/
def pySetDiff (xs ys : List Nat) : List Nat :=
  (sortLe natLe xs.dedup).filter (fun x => decide (x ∉ ys))

/-- The `while new_eps:` loop of `NFA.epsilon_closure`, with fuel. -/
def epsLoop (n : PyNFA) : Nat → List Nat → List Nat → Option (List Nat)
  | 0, fixed, newEps => if newEps = [] then some fixed else none
  | fuel + 1, fixed, newEps =>
    if newEps = [] then some fixed
    else
      epsLoop n fuel (fixed ++ newEps)
        (pySetDiff (n.move_on newEps none) (fixed ++ newEps))

/-- Epsilon closure of a node list (`NFA.epsilon_closure`): start from a copy
of `nodes`, and repeatedly extend by new epsilon moves. -/
def PyNFA.epsilon_closure (n : PyNFA) (fuel : Nat) (nodes : List Nat) : Option (List Nat) :=
  epsLoop n fuel nodes (n.move_on nodes none)

/-- The mutable locals of the subset-construction loop in `NFA.to_dfa`. -/
structure SubsetSt where
  new_states : List (List Nat)
  new_transitions : List Transition
  new_term_states : List Nat
  queue : List (List Nat)
deriving DecidableEq, Repr

/-- The body of the `for current_on in ...` loop of `NFA.to_dfa` for one
label: epsilon labels are skipped; otherwise the closure of the move is
registered if new (together with queueing and the accept check) and a DFA
transition is recorded with `list.index` lookups on the updated registry. -/
def stepLabel (nfa : PyNFA) (fuel : Nat) (cur : List Nat) (st : SubsetSt)
    (l : Option Char) : Option SubsetSt :=
  match l with
  | none => some st
  | some c =>
    match nfa.epsilon_closure fuel (nfa.move_on cur (some c)) with
    | none => none
    | some t =>
      let st1 : SubsetSt :=
        if t ∈ st.new_states then st
        else
          { new_states := st.new_states ++ [t]
            new_transitions := st.new_transitions
            new_term_states :=
              if nfa.term ∈ t then st.new_term_states ++ [st.new_states.length]
              else st.new_term_states
            queue := st.queue ++ [t] }
      some { st1 with
              new_transitions := st1.new_transitions ++
                [⟨some c, pyListIndex st1.new_states cur, pyListIndex st1.new_states t⟩] }

/-- Processing of all enumerated labels of one popped subset, in order. -/
def stepLabels (nfa : PyNFA) (fuel : Nat) (cur : List Nat) :
    SubsetSt → List (Option Char) → Option SubsetSt
  | st, [] => some st
  | st, l :: ls =>
    match stepLabel nfa fuel cur st l with
    | none => none
    | some st' => stepLabels nfa fuel cur st' ls

/-- The `while queue:` loop of `NFA.to_dfa`: pop the last queued subset and
process its enumerated labels. -/
def subsetLoop (nfa : PyNFA) : Nat → SubsetSt → Option SubsetSt
  | 0, st => if st.queue.isEmpty then some st else none
  | fuel + 1, st =>
    match popLast st.queue with
    | none => some st
    | some (rest, cur) =>
      match stepLabels nfa fuel cur { st with queue := rest }
          (nfa.get_moves_for_nodes cur) with
      | none => none
      | some st2 => subsetLoop nfa fuel st2

/-- Subset construction (`NFA.to_dfa`), kept with its full final state so
that the registry of subsets can be inspected: the initial DFA state is the
epsilon closure of the NFA start, registered and queued with no accept-state
check, then the worklist loop runs. -/
def PyNFA.to_dfa_full (nfa : PyNFA) (fuel : Nat) : Option SubsetSt :=
  match nfa.epsilon_closure fuel [nfa.start] with
  | none => none
  | some init =>
    subsetLoop nfa fuel
      { new_states := [init], new_transitions := [], new_term_states := []
        queue := [init] }

/-- The value `NFA.to_dfa` actually returns:
`DFA(new_transitions, 0, new_term_states)`. -/
def PyNFA.to_dfa (nfa : PyNFA) (fuel : Nat) : Option PyDFA :=
  (nfa.to_dfa_full fuel).map (fun st => ⟨st.new_transitions, 0, st.new_term_states⟩)

/-- Largest state number referenced by any transition (`max_node`); the
source raises on an empty transition list, which never occurs for fragments,
so the empty case is totalized to 0 and guarded by hypotheses where used. -/
def PyNFA.max_node (f : PyNFA) : Nat :=
  f.transitions.foldl (fun m u => max m (max u.source u.dest)) 0

/-- Smallest state number referenced by any transition (`min_node`), with the
same caveat about the empty list as `max_node`. -/
def PyNFA.min_node (f : PyNFA) : Nat :=
  match f.transitions with
  | [] => 0
  | t :: ts => ts.foldl (fun m u => min m (min u.source u.dest)) (min t.source t.dest)

/-- Add `offset` to the start, the accept and every transition endpoint
(`NFA.add_offset`). -/
def PyNFA.add_offset (f : PyNFA) (offset : Nat) : PyNFA :=
  ⟨f.transitions.map (fun t => ⟨t.lab, t.source + offset, t.dest + offset⟩),
   f.start + offset, f.term + offset⟩

/-- Substitute `new` for `orig` in every transition endpoint
(`NFA.replace_node`); the `start` and `term` fields are not touched. -/
def PyNFA.replace_node (f : PyNFA) (orig new : Nat) : PyNFA :=
  { f with transitions := f.transitions.map (fun t =>
      ⟨t.lab, if t.source = orig then new else t.source,
             if t.dest = orig then new else t.dest⟩) }

/-- The literal fragment (`NFA.from_char`): states 0 and 1, one transition. -/
def PyNFA.from_char (c : Char) : PyNFA := ⟨[⟨some c, 0, 1⟩], 0, 1⟩

/-- The join-point offset chosen by `NFA.concat`: `max_node`, incremented
when that is not already the left accept. -/
def PyNFA.concat_offset (l : PyNFA) : Nat :=
  if l.max_node ≠ l.term then l.max_node + 1 else l.max_node

/-- Concatenation (`NFA.concat`): offset the right fragment, replace the
LEFT start's number inside the offset right fragment by the join point,
rename the left accept to the join point, merge. -/
def PyNFA.concat (l r : PyNFA) : PyNFA :=
  let offset := l.concat_offset
  let r1 := (r.add_offset offset).replace_node l.start offset
  let l1 := l.replace_node l.term offset
  ⟨l1.transitions ++ r1.transitions, l1.start, r1.term⟩

/-- Prepend a new start (`NFA.prepend_new_start`): grab `min_node`, offset
everything by one, add an epsilon edge from the grabbed number to the offset
start. -/
def PyNFA.prepend_new_start (f : PyNFA) : PyNFA :=
  let newStart := f.min_node
  let f1 := f.add_offset 1
  { f1 with transitions := f1.transitions ++ [⟨none, newStart, f1.start⟩]
            start := newStart }

/-- Append a new accept (`NFA.append_new_term`): `max_node + 1` with an
epsilon edge from the old accept. -/
def PyNFA.append_new_term (f : PyNFA) : PyNFA :=
  let newTerm := f.max_node + 1
  { f with transitions := f.transitions ++ [⟨none, f.term, newTerm⟩]
           term := newTerm }

/-- Alternation (`NFA.disjunct`): new start and accept around the left
fragment, the right fragment offset past the new accept, epsilon edges from
the new start to the right's start and from the right's accept to the new
accept, then merge. -/
def PyNFA.disjunct (l d : PyNFA) : PyNFA :=
  let s1 := l.prepend_new_start
  let s2 := s1.append_new_term
  let offset := s2.term + 1
  let d1 := d.add_offset offset
  { s2 with transitions := s2.transitions ++ [⟨none, s2.start, d1.start⟩]
      ++ [⟨none, d1.term, s2.term⟩] ++ d1.transitions }

/-- Kleene star (`NFA.zero_or_more`): epsilon edges start→accept and
accept→start, then a fresh accept appended. -/
def PyNFA.zero_or_more (f : PyNFA) : PyNFA :=
  PyNFA.append_new_term
    { f with transitions := f.transitions ++
        [⟨none, f.start, f.term⟩, ⟨none, f.term, f.start⟩] }

/-- Fragments produced by the fragment algebra of the source: a literal, or
any composition by `concat`, `disjunct` or `zero_or_more` of produced
fragments (the `+` quantifier is `concat` with a starred deep copy, hence
covered). -/
inductive Produced : PyNFA → Prop
  | char (c : Char) : Produced (PyNFA.from_char c)
  | cat {l r : PyNFA} : Produced l → Produced r → Produced (l.concat r)
  | alt {l r : PyNFA} : Produced l → Produced r → Produced (l.disjunct r)
  | star {f : PyNFA} : Produced f → Produced f.zero_or_more

/-- The fragment for the literal `a`, used in concrete evaluations. -/
def aChar : PyNFA := PyNFA.from_char 'a'

/-- The fragment the source builds for the regex `a*`. -/
def aStar : PyNFA := aChar.zero_or_more

/-- Structured parse errors: the `ValueError("no closing ) for group")` the
source raises (the spec's `UnclosedGroup`), and the `IndexError` Python
raises on an out-of-range string index (never hit on the runs verified
here, but part of a faithful model of `self.s[self.i]`). -/
inductive PErr where
  | unclosedGroup
  | indexError
deriving DecidableEq, Repr

/-- The rewindable cursor (`RegexString`): the character list and a 0-based
position.  The position is an `Int` because `push_back` decrements without a
range check, so it can go below 0. -/
structure RegexString where
  s : List Char
  i : Int
deriving DecidableEq, Repr

/-- Python indexing `s[i]`: nonnegative indices from the front, negative
indices from the back, anything else raises `IndexError`. -/
def pyCharAt (s : List Char) (i : Int) : Option Char :=
  if 0 ≤ i ∧ i < s.length then s.get? i.toNat
  else if -(s.length : Int) ≤ i ∧ i < 0 then s.get? (s.length - (-i).toNat)
  else none

/-- Cursor exhaustion test (`RegexString.is_eof`): the position equals the
source length. -/
def RegexString.is_eof (b : RegexString) : Bool := b.i = (b.s.length : Int)

/-- Consume one character (`RegexString.pop`): at end of input return the
empty-string sentinel (`none`) without advancing, otherwise return `s[i]`
and advance. -/
def RegexString.pop (b : RegexString) : Except PErr (Option Char × RegexString) :=
  if b.is_eof then .ok (none, b)
  else
    match pyCharAt b.s b.i with
    | some c => .ok (some c, { b with i := b.i + 1 })
    | none => .error .indexError

/-- One-character lookahead (`RegexString.peek`): like `pop` but without
advancing. -/
def RegexString.peek (b : RegexString) : Except PErr (Option Char) :=
  if b.is_eof then .ok none
  else
    match pyCharAt b.s b.i with
    | some c => .ok (some c)
    | none => .error .indexError

/-- Rewind by one (`RegexString.push_back`): unconditionally decrement the
position, with no range check. -/
def RegexString.push_back (b : RegexString) : RegexString := { b with i := b.i - 1 }

/-- Python `str.isalnum` restricted to the ASCII inputs this grammar deals
with. -/
def pyIsAlnum (c : Char) : Bool := c.isAlpha || c.isDigit

/-- The AST node classes of the parser, as one tagged type.  A `rgroup` or
`runity` child is an `Option` because the source wraps the raw return value
of the sub-parser, which is the falsy `False` (here `none`) on no-match. -/
inductive RegexAst where
  | rchar (c : Char)
  | rgroup (child : Option RegexAst)
  | runity (child : Option RegexAst)
  | rquality (child : RegexAst) (qualifier : Option Char)
  | rconcat (children : List RegexAst)
  | rdisj (children : List RegexAst)

/-- Result of a sub-parser: an exception, or a node / the falsy no-match
value `none` together with the cursor after the call. -/
def ParseRes : Type := Except PErr (Option RegexAst × RegexString)

/-- The `Char` sub-parser (`RegChar.from_buf`): pop one character; if
alphanumeric succeed, otherwise push the cursor back and report no-match.
Note the pop at end of input does not advance, while the push-back always
rewinds. -/
def RegChar.from_buf (b : RegexString) : ParseRes :=
  match b.pop with
  | .error e => .error e
  | .ok (some c, b') =>
    if pyIsAlnum c then .ok (some (.rchar c), b') else .ok (none, b'.push_back)
  | .ok (none, b') => .ok (none, b'.push_back)

mutual

/-- The `Group` sub-parser (`RegGroup.from_buf`): pop; on `(` parse a `Disj`
and require a `)` pop, raising the unclosed-group error otherwise; on any
other character push back and report no-match. -/
def RegGroup.from_buf : Nat → RegexString → Option ParseRes
  | 0, _ => none
  | fuel + 1, b =>
    match b.pop with
    | .error e => some (.error e)
    | .ok (c, b1) =>
      if c = some '(' then
        match RegDisj.from_buf fuel b1 with
        | none => none
        | some (.error e) => some (.error e)
        | some (.ok (exp, b2)) =>
          match b2.pop with
          | .error e => some (.error e)
          | .ok (c2, b3) =>
            if c2 = some ')' then some (.ok (some (.rgroup exp), b3))
            else some (.error .unclosedGroup)
      else some (.ok (none, b1.push_back))

/-- The `Unity` sub-parser (`RegUnity.from_buf`): on a `(` lookahead
delegate to `Group` (wrapping its raw result), else try `Char`. -/
def RegUnity.from_buf : Nat → RegexString → Option ParseRes
  | 0, _ => none
  | fuel + 1, b =>
    match b.peek with
    | .error e => some (.error e)
    | .ok pk =>
      if pk = some '(' then
        match RegGroup.from_buf fuel b with
        | none => none
        | some (.error e) => some (.error e)
        | some (.ok (g, b')) => some (.ok (some (.runity g), b'))
      else
        match RegChar.from_buf b with
        | .error e => some (.error e)
        | .ok (some cNode, b') => some (.ok (some (.runity (some cNode)), b'))
        | .ok (none, b') => some (.ok (none, b'))

/-- The `Quality` sub-parser (`RegQuality.from_buf`): parse a `Unity`; on
no-match report no-match; then consume a `*` or `+` lookahead as the
qualifier, or record the empty qualifier. -/
def RegQuality.from_buf : Nat → RegexString → Option ParseRes
  | 0, _ => none
  | fuel + 1, b =>
    match RegUnity.from_buf fuel b with
    | none => none
    | some (.error e) => some (.error e)
    | some (.ok (none, b1)) => some (.ok (none, b1))
    | some (.ok (some u, b1)) =>
      match b1.peek with
      | .error e => some (.error e)
      | .ok pk =>
        if pk = some '*' ∨ pk = some '+' then
          match b1.pop with
          | .error e => some (.error e)
          | .ok (q, b2) => some (.ok (some (.rquality u q), b2))
        else some (.ok (some (.rquality u none), b1))

/-- The greedy `while exp:` loop of `RegConcat.from_buf`, accumulating
parsed `Quality` nodes until one reports no-match. -/
def RegConcat.loop : Nat → List RegexAst → RegexString → Option (Except PErr (List RegexAst × RegexString))
  | 0, _, _ => none
  | fuel + 1, acc, b =>
    match RegQuality.from_buf fuel b with
    | none => none
    | some (.error e) => some (.error e)
    | some (.ok (none, b1)) => some (.ok (acc, b1))
    | some (.ok (some q, b1)) => RegConcat.loop fuel (acc ++ [q]) b1

/-- The `Concat` sub-parser (`RegConcat.from_buf`): greedy `Quality` nodes;
no-match when none was produced. -/
def RegConcat.from_buf : Nat → RegexString → Option ParseRes
  | 0, _ => none
  | fuel + 1, b =>
    match RegConcat.loop fuel [] b with
    | none => none
    | some (.error e) => some (.error e)
    | some (.ok (exps, b1)) =>
      some (.ok (if exps.isEmpty then none else some (.rconcat exps), b1))

/-- The alternation loop of `RegDisj.from_buf`: after each parsed `Concat`,
a `|` lookahead continues the loop, anything else breaks. -/
def RegDisj.loop : Nat → List RegexAst → RegexString → Option (Except PErr (List RegexAst × RegexString))
  | 0, _, _ => none
  | fuel + 1, acc, b =>
    match RegConcat.from_buf fuel b with
    | none => none
    | some (.error e) => some (.error e)
    | some (.ok (none, b1)) => some (.ok (acc, b1))
    | some (.ok (some cNode, b1)) =>
      match b1.peek with
      | .error e => some (.error e)
      | .ok pk =>
        if pk = some '|' then
          match b1.pop with
          | .error e => some (.error e)
          | .ok (_, b2) => RegDisj.loop fuel (acc ++ [cNode]) b2
        else some (.ok (acc ++ [cNode], b1))

/-- The `Disj` sub-parser (`RegDisj.from_buf`): alternation of `Concat`
nodes; no-match when none was produced. -/
def RegDisj.from_buf : Nat → RegexString → Option ParseRes
  | 0, _ => none
  | fuel + 1, b =>
    match RegDisj.loop fuel [] b with
    | none => none
    | some (.error e) => some (.error e)
    | some (.ok (exps, b1)) =>
      some (.ok (if exps.isEmpty then none else some (.rdisj exps), b1))

end

/-- The top-level entry point (`RegexString.parse`): it returns exactly what
`RegDisj.from_buf` returns on a fresh cursor — there is no end-of-input
check, no `TrailingInput` and no `EmptyInput` anywhere in the source. -/
def RegexString.parse (fuel : Nat) (s : List Char) : Option ParseRes :=
  RegDisj.from_buf fuel ⟨s, 0⟩

/-! Generic facts about the list helpers. -/

theorem insertLe_perm {α : Type} (le : α → α → Bool) (x : α) (l : List α) :
    (insertLe le x l).Perm (x :: l) := by
  induction l with
  | nil => simp [insertLe]
  | cons y ys ih =>
    simp only [insertLe]
    split
    · exact List.Perm.refl _
    · exact (ih.cons y).trans (List.Perm.swap x y ys)

theorem sortLe_perm {α : Type} (le : α → α → Bool) (l : List α) :
    (sortLe le l).Perm l := by
  induction l with
  | nil => simp [sortLe]
  | cons x xs ih => exact (insertLe_perm le x (sortLe le xs)).trans (ih.cons x)

theorem mem_sortLe {α : Type} {le : α → α → Bool} {l : List α} {a : α} :
    a ∈ sortLe le l ↔ a ∈ l := (sortLe_perm le l).mem_iff

theorem nodup_sortLe {α : Type} {le : α → α → Bool} {l : List α} (h : l.Nodup) :
    (sortLe le l).Nodup := (sortLe_perm le l).nodup_iff.mpr h

theorem popLast_eq {α : Type} :
    ∀ {l front : List α} {a : α}, popLast l = some (front, a) → l = front ++ [a] := by
  intro l
  induction l with
  | nil => intro front a h; simp [popLast] at h
  | cons x xs ih =>
    intro front a h
    cases xs with
    | nil =>
      simp only [popLast, Option.some.injEq, Prod.mk.injEq] at h
      rw [← h.1, ← h.2]
      rfl
    | cons y ys =>
      simp only [popLast] at h
      cases hrec : popLast (y :: ys) with
      | none => rw [hrec] at h; exact absurd h (by simp)
      | some p =>
        obtain ⟨f2, l2⟩ := p
        rw [hrec] at h
        simp only [Option.some.injEq, Prod.mk.injEq] at h
        rw [← h.1, ← h.2]
        have := ih hrec
        simp [this]

theorem pyListIndex_lt_length {α : Type} [DecidableEq α] {l : List α} {a : α}
    (h : a ∈ l) : pyListIndex l a < l.length := by
  induction l with
  | nil => simp at h
  | cons x xs ih =>
    simp only [pyListIndex]
    split
    · simp
    · rename_i hne
      have hmem : a ∈ xs := by
        rcases List.mem_cons.mp h with h' | h'
        · exact absurd h'.symm hne
        · exact h'
      simpa [Nat.succ_lt_succ_iff] using ih hmem

theorem pyListIndex_append_left {α : Type} [DecidableEq α] {l1 : List α}
    (l2 : List α) {a : α} (h : a ∈ l1) :
    pyListIndex (l1 ++ l2) a = pyListIndex l1 a := by
  induction l1 with
  | nil => simp at h
  | cons x xs ih =>
    simp only [List.cons_append, pyListIndex]
    split
    · rfl
    · rename_i hne
      have hmem : a ∈ xs := by
        rcases List.mem_cons.mp h with h' | h'
        · exact absurd h'.symm hne
        · exact h'
      rw [List.append_eq, ih hmem]

theorem pyListIndex_append_self {α : Type} [DecidableEq α] {l : List α} {a : α}
    (h : a ∉ l) : pyListIndex (l ++ [a]) a = l.length := by
  induction l with
  | nil => simp [pyListIndex]
  | cons x xs ih =>
    simp only [List.cons_append, pyListIndex]
    have hne : ¬(x = a) := fun hxa => h (hxa ▸ List.mem_cons_self x xs)
    rw [if_neg hne, List.append_eq, ih (fun hm => h (List.mem_cons_of_mem x hm))]
    rfl

theorem pyListIndex_inj {α : Type} [DecidableEq α] :
    ∀ {l : List α}, l.Nodup → ∀ {a b : α}, a ∈ l → b ∈ l →
      pyListIndex l a = pyListIndex l b → a = b := by
  intro l
  induction l with
  | nil => intro _ a b ha; simp at ha
  | cons x xs ih =>
    intro hnd a b ha hb h
    have hx : x ∉ xs := (List.nodup_cons.mp hnd).1
    have hxs : xs.Nodup := (List.nodup_cons.mp hnd).2
    simp only [pyListIndex] at h
    by_cases hxa : x = a
    · by_cases hxb : x = b
      · rw [← hxa, ← hxb]
      · rw [if_pos hxa, if_neg hxb] at h
        exact absurd h.symm (Nat.succ_ne_zero _)
    · by_cases hxb : x = b
      · rw [if_neg hxa, if_pos hxb] at h
        exact absurd h (Nat.succ_ne_zero _)
      · rw [if_neg hxa, if_neg hxb] at h
        have ha' : a ∈ xs := by
          rcases List.mem_cons.mp ha with h' | h'
          · exact absurd h'.symm hxa
          · exact h'
        have hb' : b ∈ xs := by
          rcases List.mem_cons.mp hb with h' | h'
          · exact absurd h'.symm hxb
          · exact h'
        exact ih hxs ha' hb' (Nat.succ_injective h)

theorem map_eq_self_of {α : Type} {f : α → α} :
    ∀ {l : List α}, (∀ x ∈ l, f x = x) → l.map f = l := by
  intro l h
  induction l with
  | nil => rfl
  | cons x xs ih =>
    simp only [List.map_cons, h x (List.mem_cons_self x xs),
      ih (fun y hy => h y (List.mem_cons_of_mem x hy))]

/-! Facts about `move_on`, `get_moves_for_nodes` and `epsilon_closure`. -/

theorem mem_move_on {n : PyNFA} {nodes : List Nat} {lab : Option Char} {d : Nat} :
    d ∈ n.move_on nodes lab ↔
      ∃ t ∈ n.transitions, t.lab = lab ∧ t.source ∈ nodes ∧ t.dest = d := by
  unfold PyNFA.move_on
  rw [mem_sortLe]
  simp only [List.mem_map, List.mem_filter, decide_eq_true_eq]
  constructor
  · rintro ⟨t, ⟨ht, hlab, hsrc⟩, hd⟩
    exact ⟨t, ht, hlab, hsrc, hd⟩
  · rintro ⟨t, ht, hlab, hsrc, hd⟩
    exact ⟨t, ⟨ht, hlab, hsrc⟩, hd⟩

theorem mem_get_moves {n : PyNFA} {nodes : List Nat} {lab : Option Char} :
    lab ∈ n.get_moves_for_nodes nodes ↔
      ∃ t ∈ n.transitions, t.source ∈ nodes ∧ t.lab = lab := by
  unfold PyNFA.get_moves_for_nodes
  rw [mem_sortLe, List.mem_dedup]
  simp only [List.mem_map, List.mem_filter, decide_eq_true_eq]
  constructor
  · rintro ⟨t, ⟨ht, hsrc⟩, hl⟩
    exact ⟨t, ht, hsrc, hl⟩
  · rintro ⟨t, ht, hsrc, hl⟩
    exact ⟨t, ⟨ht, hsrc⟩, hl⟩

theorem nodup_get_moves {n : PyNFA} {nodes : List Nat} :
    (n.get_moves_for_nodes nodes).Nodup := nodup_sortLe (List.nodup_dedup _)

theorem move_on_ne_nil {n : PyNFA} {nodes : List Nat} {lab : Option Char}
    (h : lab ∈ n.get_moves_for_nodes nodes) : n.move_on nodes lab ≠ [] := by
  obtain ⟨t, ht, hsrc, hl⟩ := mem_get_moves.mp h
  exact List.ne_nil_of_mem (mem_move_on.mpr ⟨t, ht, hl, hsrc, rfl⟩)

theorem epsLoop_extends {n : PyNFA} :
    ∀ {fuel : Nat} {fixed newEps r : List Nat},
      epsLoop n fuel fixed newEps = some r → ∃ s, r = fixed ++ s := by
  intro fuel
  induction fuel with
  | zero =>
    intro fixed newEps r h
    simp only [epsLoop] at h
    split at h
    · exact ⟨[], by simpa using (Option.some.injEq _ _ ▸ h).symm⟩
    · exact absurd h (by simp)
  | succ f ih =>
    intro fixed newEps r h
    simp only [epsLoop] at h
    split at h
    · exact ⟨[], by simpa using (Option.some.injEq _ _ ▸ h).symm⟩
    · obtain ⟨s, hs⟩ := ih h
      exact ⟨newEps ++ s, by simp [hs]⟩

theorem epsilon_closure_extends {n : PyNFA} {fuel : Nat} {nodes r : List Nat}
    (h : n.epsilon_closure fuel nodes = some r) : ∃ s, r = nodes ++ s :=
  epsLoop_extends h

theorem epsilon_closure_ne_nil {n : PyNFA} {fuel : Nat} {nodes r : List Nat}
    (h : n.epsilon_closure fuel nodes = some r) (hn : nodes ≠ []) : r ≠ [] := by
  obtain ⟨s, hs⟩ := epsilon_closure_extends h
  rw [hs]
  exact fun hc => hn (List.append_eq_nil.mp hc).1

/-! Invariants of the subset-construction worklist loop. -/

/-- Determinism property for a pair of recorded DFA transitions: they do not
share both source index and label. -/
def DetProp (a b : Transition) : Prop := ¬(a.source = b.source ∧ a.lab = b.lab)

/-- Invariant carried through the worklist loop of `to_dfa`: the registry of
subsets is duplicate-free and free of the empty list, the queue is a
duplicate-free sub-collection of the registry, recorded transitions carry
valid non-epsilon labels and source indices, are pairwise distinct on
(source, label), and no transition's source is the index of a subset that is
still queued (i.e. not yet processed). -/
structure InvCore (st : SubsetSt) : Prop where
  states_nodup : st.new_states.Nodup
  states_ne_nil : ∀ S ∈ st.new_states, S ≠ []
  queue_nodup : st.queue.Nodup
  queue_sub : ∀ q ∈ st.queue, q ∈ st.new_states
  src_lt : ∀ t ∈ st.new_transitions, t.source < st.new_states.length
  lab_ne : ∀ t ∈ st.new_transitions, t.lab ≠ none
  det : st.new_transitions.Pairwise DetProp
  src_ne_queued : ∀ t ∈ st.new_transitions, ∀ q ∈ st.queue,
    t.source ≠ pyListIndex st.new_states q

theorem stepLabel_mem_eq {nfa : PyNFA} {fuel : Nat} {cur T : List Nat}
    {st : SubsetSt} {c : Char}
    (hcl : nfa.epsilon_closure fuel (nfa.move_on cur (some c)) = some T)
    (hT : T ∈ st.new_states) :
    stepLabel nfa fuel cur st (some c) = some { st with new_transitions :=
      st.new_transitions ++
        [⟨some c, pyListIndex st.new_states cur, pyListIndex st.new_states T⟩] } := by
  simp [stepLabel, hcl, hT]

theorem stepLabel_new_eq {nfa : PyNFA} {fuel : Nat} {cur T : List Nat}
    {st : SubsetSt} {c : Char}
    (hcl : nfa.epsilon_closure fuel (nfa.move_on cur (some c)) = some T)
    (hT : T ∉ st.new_states) :
    stepLabel nfa fuel cur st (some c) = some
      { new_states := st.new_states ++ [T]
        new_transitions := st.new_transitions ++
          [⟨some c, pyListIndex (st.new_states ++ [T]) cur,
            pyListIndex (st.new_states ++ [T]) T⟩]
        new_term_states :=
          if nfa.term ∈ T then st.new_term_states ++ [st.new_states.length]
          else st.new_term_states
        queue := st.queue ++ [T] } := by
  simp [stepLabel, hcl, hT]

theorem stepLabel_pres {nfa : PyNFA} {fuel : Nat} {cur : List Nat}
    {st st' : SubsetSt} {l : Option Char}
    (hinv : InvCore st)
    (hcur : cur ∈ st.new_states)
    (hcq : cur ∉ st.queue)
    (hfresh : ∀ t ∈ st.new_transitions,
      t.source = pyListIndex st.new_states cur → t.lab ≠ l)
    (hmv : nfa.move_on cur l ≠ [])
    (hstep : stepLabel nfa fuel cur st l = some st') :
    InvCore st' ∧ cur ∈ st'.new_states ∧ cur ∉ st'.queue ∧
      pyListIndex st'.new_states cur = pyListIndex st.new_states cur ∧
      ∃ ts, st'.new_transitions = st.new_transitions ++ ts ∧
        ∀ t ∈ ts, t.source = pyListIndex st.new_states cur ∧ t.lab = l := by
  cases l with
  | none =>
    have hid : st = st' := by simpa [stepLabel] using hstep
    subst hid
    exact ⟨hinv, hcur, hcq, rfl, ⟨[], by simp, by simp⟩⟩
  | some c =>
    cases hcl : nfa.epsilon_closure fuel (nfa.move_on cur (some c)) with
    | none =>
      simp only [stepLabel, hcl] at hstep
      exact absurd hstep (by simp)
    | some T =>
      by_cases hT : T ∈ st.new_states
      · rw [stepLabel_mem_eq hcl hT] at hstep
        have hst' := Option.some.inj hstep
        subst hst'
        refine ⟨⟨hinv.states_nodup, hinv.states_ne_nil, hinv.queue_nodup,
          hinv.queue_sub, ?_, ?_, ?_, ?_⟩, hcur, hcq, rfl, ⟨_, rfl, ?_⟩⟩
        · intro t ht
          rcases List.mem_append.mp ht with h | h
          · exact hinv.src_lt t h
          · rw [List.mem_singleton.mp h]
            exact pyListIndex_lt_length hcur
        · intro t ht
          rcases List.mem_append.mp ht with h | h
          · exact hinv.lab_ne t h
          · rw [List.mem_singleton.mp h]
            simp
        · rw [List.pairwise_append]
          refine ⟨hinv.det, List.pairwise_singleton _ _, ?_⟩
          intro a ha b hb
          rw [List.mem_singleton.mp hb]
          rintro ⟨hs, hlab⟩
          exact hfresh a ha hs hlab
        · intro t ht q hq
          rcases List.mem_append.mp ht with h | h
          · exact hinv.src_ne_queued t h q hq
          · rw [List.mem_singleton.mp h]
            intro he
            have := pyListIndex_inj hinv.states_nodup hcur (hinv.queue_sub q hq) he
            exact hcq (this ▸ hq)
        · intro t ht
          rw [List.mem_singleton.mp ht]
          exact ⟨rfl, rfl⟩
      · rw [stepLabel_new_eq hcl hT] at hstep
        have hst' := Option.some.inj hstep
        subst hst'
        have hTne : T ≠ [] := epsilon_closure_ne_nil hcl hmv
        have hTcur : T ≠ cur := fun h => hT (h ▸ hcur)
        have hidxc : pyListIndex (st.new_states ++ [T]) cur
            = pyListIndex st.new_states cur := pyListIndex_append_left _ hcur
        have hidxT : pyListIndex (st.new_states ++ [T]) T
            = st.new_states.length := pyListIndex_append_self hT
        have hnodup' : (st.new_states ++ [T]).Nodup := by
          rw [List.nodup_append]
          exact ⟨hinv.states_nodup, List.nodup_singleton T,
            fun a ha hb => hT ((List.mem_singleton.mp hb) ▸ ha)⟩
        refine ⟨⟨hnodup', ?_, ?_, ?_, ?_, ?_, ?_, ?_⟩,
          List.mem_append_left _ hcur, ?_, hidxc, ⟨_, rfl, ?_⟩⟩
        · intro S hS
          rcases List.mem_append.mp hS with h | h
          · exact hinv.states_ne_nil S h
          · rw [List.mem_singleton.mp h]
            exact hTne
        · rw [List.nodup_append]
          exact ⟨hinv.queue_nodup, List.nodup_singleton T,
            fun a ha hb => hT ((List.mem_singleton.mp hb) ▸ hinv.queue_sub a ha)⟩
        · intro q hq
          rcases List.mem_append.mp hq with h | h
          · exact List.mem_append_left _ (hinv.queue_sub q h)
          · exact List.mem_append_right _ h
        · intro t ht
          rcases List.mem_append.mp ht with h | h
          · calc t.source < st.new_states.length := hinv.src_lt t h
              _ < (st.new_states ++ [T]).length := by simp
          · rw [List.mem_singleton.mp h]
            show pyListIndex (st.new_states ++ [T]) cur < _
            rw [hidxc]
            calc pyListIndex st.new_states cur < st.new_states.length :=
                pyListIndex_lt_length hcur
              _ < (st.new_states ++ [T]).length := by simp
        · intro t ht
          rcases List.mem_append.mp ht with h | h
          · exact hinv.lab_ne t h
          · rw [List.mem_singleton.mp h]
            simp
        · rw [List.pairwise_append]
          refine ⟨hinv.det, List.pairwise_singleton _ _, ?_⟩
          intro a ha b hb
          rw [List.mem_singleton.mp hb]
          rintro ⟨hs, hlab⟩
          rw [hidxc] at hs
          exact hfresh a ha hs hlab
        · intro t ht q hq
          rcases List.mem_append.mp ht with h | h
          · rcases List.mem_append.mp hq with h2 | h2
            · rw [pyListIndex_append_left _ (hinv.queue_sub q h2)]
              exact hinv.src_ne_queued t h q h2
            · rw [List.mem_singleton.mp h2, hidxT]
              exact Nat.ne_of_lt (hinv.src_lt t h)
          · rw [List.mem_singleton.mp h]
            show pyListIndex (st.new_states ++ [T]) cur ≠ _
            rw [hidxc]
            rcases List.mem_append.mp hq with h2 | h2
            · rw [pyListIndex_append_left _ (hinv.queue_sub q h2)]
              intro he
              have := pyListIndex_inj hinv.states_nodup hcur (hinv.queue_sub q h2) he
              exact hcq (this ▸ h2)
            · rw [List.mem_singleton.mp h2, hidxT]
              exact Nat.ne_of_lt (pyListIndex_lt_length hcur)
        · intro hmem
          rcases List.mem_append.mp hmem with h | h
          · exact hcq h
          · exact hTcur (List.mem_singleton.mp h).symm
        · intro t ht
          rw [List.mem_singleton.mp ht]
          exact ⟨hidxc, rfl⟩

theorem stepLabels_pres {nfa : PyNFA} {fuel : Nat} {cur : List Nat} :
    ∀ {L : List (Option Char)} {st st' : SubsetSt},
      stepLabels nfa fuel cur st L = some st' →
      InvCore st → cur ∈ st.new_states → cur ∉ st.queue →
      (∀ t ∈ st.new_transitions,
        t.source = pyListIndex st.new_states cur → ∀ l ∈ L, t.lab ≠ l) →
      L.Nodup →
      (∀ l ∈ L, nfa.move_on cur l ≠ []) → InvCore st' := by
  intro L
  induction L with
  | nil =>
    intro st st' h hinv _ _ _ _ _
    simp only [stepLabels, Option.some.injEq] at h
    exact h ▸ hinv
  | cons l ls ih =>
    intro st st' hstep hinv hcur hcq hfresh hnodup hmv
    cases hsl : stepLabel nfa fuel cur st l with
    | none =>
      simp only [stepLabels, hsl] at hstep
      exact absurd hstep (by simp)
    | some st1 =>
      simp only [stepLabels, hsl] at hstep
      obtain ⟨hinv1, hcur1, hcq1, hidx, ts, hts, htsprop⟩ :=
        stepLabel_pres hinv hcur hcq
          (fun t ht hs => hfresh t ht hs l (List.mem_cons_self l ls))
          (hmv l (List.mem_cons_self l ls)) hsl
      refine ih hstep hinv1 hcur1 hcq1 ?_ (List.nodup_cons.mp hnodup).2
        (fun l' hl' => hmv l' (List.mem_cons_of_mem l hl'))
      intro t ht hs l' hl'
      rw [hts] at ht
      rcases List.mem_append.mp ht with hold | hnew
      · exact hfresh t hold (hs.trans hidx) l' (List.mem_cons_of_mem l hl')
      · obtain ⟨-, hlab⟩ := htsprop t hnew
        rw [hlab]
        intro he
        exact (List.nodup_cons.mp hnodup).1 (he ▸ hl')

theorem subsetLoop_pres {nfa : PyNFA} :
    ∀ {fuel : Nat} {st st' : SubsetSt},
      InvCore st → subsetLoop nfa fuel st = some st' → InvCore st' := by
  intro fuel
  induction fuel with
  | zero =>
    intro st st' hinv h
    simp only [subsetLoop] at h
    split at h
    · exact (Option.some.inj h) ▸ hinv
    · exact absurd h (by simp)
  | succ f ih =>
    intro st st' hinv h
    cases hpop : popLast st.queue with
    | none =>
      simp only [subsetLoop, hpop, Option.some.injEq] at h
      exact h ▸ hinv
    | some p =>
      obtain ⟨rest, cur⟩ := p
      have hq : st.queue = rest ++ [cur] := popLast_eq hpop
      simp only [subsetLoop, hpop] at h
      cases hsl : stepLabels nfa f cur { st with queue := rest }
          (nfa.get_moves_for_nodes cur) with
      | none => rw [hsl] at h; exact absurd h (by simp)
      | some st2 =>
        rw [hsl] at h
        have hcurq : cur ∈ st.queue := by
          rw [hq]
          exact List.mem_append_right _ (List.mem_singleton.mpr rfl)
        have hcurs : cur ∈ st.new_states := hinv.queue_sub cur hcurq
        have hqnodup := hinv.queue_nodup
        rw [hq, List.nodup_append] at hqnodup
        obtain ⟨hrest_nodup, -, hdisj⟩ := hqnodup
        have hcnr : cur ∉ rest := fun hc => hdisj hc (List.mem_singleton.mpr rfl)
        refine ih ?_ h
        refine stepLabels_pres hsl ?_ hcurs hcnr ?_ nodup_get_moves
          (fun l hl => move_on_ne_nil hl)
        · exact ⟨hinv.states_nodup, hinv.states_ne_nil, hrest_nodup,
            fun q hqr => hinv.queue_sub q (by rw [hq]; exact List.mem_append_left _ hqr),
            hinv.src_lt, hinv.lab_ne, hinv.det,
            fun t ht q hqr => hinv.src_ne_queued t ht q
              (by rw [hq]; exact List.mem_append_left _ hqr)⟩
        · intro t ht hs l _
          exact absurd hs (hinv.src_ne_queued t ht cur hcurq)

theorem to_dfa_full_inv {nfa : PyNFA} {fuel : Nat} {st : SubsetSt}
    (h : nfa.to_dfa_full fuel = some st) : InvCore st := by
  cases hcl : nfa.epsilon_closure fuel [nfa.start] with
  | none =>
    simp only [PyNFA.to_dfa_full, hcl] at h
    exact absurd h (by simp)
  | some init =>
    simp only [PyNFA.to_dfa_full, hcl] at h
    have hne : init ≠ [] := epsilon_closure_ne_nil hcl (by simp)
    refine subsetLoop_pres ?_ h
    exact ⟨List.nodup_singleton init,
      fun S hS => (List.mem_singleton.mp hS) ▸ hne,
      List.nodup_singleton init, fun q hq => hq,
      by simp, by simp, by simp, by simp⟩

/-! Facts about the fragment algebra. -/

theorem foldl_max_init_le {α : Type} (g : α → Nat) :
    ∀ (l : List α) (init : Nat), init ≤ l.foldl (fun m u => max m (g u)) init := by
  intro l
  induction l with
  | nil => intro init; exact Nat.le_refl _
  | cons x xs ih =>
    intro init
    exact le_trans (Nat.le_max_left init (g x)) (ih (max init (g x)))

theorem foldl_max_mem_le {α : Type} (g : α → Nat) :
    ∀ (l : List α) (init : Nat) (u : α), u ∈ l →
      g u ≤ l.foldl (fun m u => max m (g u)) init := by
  intro l
  induction l with
  | nil => intro init u hu; simp at hu
  | cons x xs ih =>
    intro init u hu
    rcases List.mem_cons.mp hu with h | h
    · subst h
      exact le_trans (Nat.le_max_right init (g u)) (foldl_max_init_le g xs _)
    · exact ih _ u h

theorem foldl_min_le_init {α : Type} (g : α → Nat) :
    ∀ (l : List α) (init : Nat), l.foldl (fun m u => min m (g u)) init ≤ init := by
  intro l
  induction l with
  | nil => intro init; exact Nat.le_refl _
  | cons x xs ih =>
    intro init
    exact le_trans (ih (min init (g x))) (Nat.min_le_left init (g x))

theorem foldl_min_le_mem {α : Type} (g : α → Nat) :
    ∀ (l : List α) (init : Nat) (u : α), u ∈ l →
      l.foldl (fun m u => min m (g u)) init ≤ g u := by
  intro l
  induction l with
  | nil => intro init u hu; simp at hu
  | cons x xs ih =>
    intro init u hu
    rcases List.mem_cons.mp hu with h | h
    · subst h
      exact le_trans (foldl_min_le_init g xs _) (Nat.min_le_right init (g u))
    · exact ih _ u h

theorem max_node_ge {f : PyNFA} {t : Transition} (h : t ∈ f.transitions) :
    max t.source t.dest ≤ f.max_node :=
  foldl_max_mem_le (fun u => max u.source u.dest) f.transitions 0 t h

theorem min_node_le {f : PyNFA} {t : Transition} (h : t ∈ f.transitions) :
    f.min_node ≤ min t.source t.dest := by
  cases hf : f.transitions with
  | nil => rw [hf] at h; simp at h
  | cons t0 ts =>
    rw [hf] at h
    simp only [PyNFA.min_node, hf]
    rcases List.mem_cons.mp h with h | h
    · rw [h]
      exact foldl_min_le_init _ ts _
    · exact foldl_min_le_mem _ ts _ t h

/-- The numeric invariant that the fragment algebra maintains and relies on:
start is 0, the accept is positive, the transition list is nonempty and both
the state 0 and the accept occur as transition endpoints. -/
structure GoodFrag (f : PyNFA) : Prop where
  start_eq : f.start = 0
  term_pos : 1 ≤ f.term
  ne_nil : f.transitions ≠ []
  has_zero : ∃ t ∈ f.transitions, t.source = 0 ∨ t.dest = 0
  has_term : ∃ t ∈ f.transitions, t.source = f.term ∨ t.dest = f.term

theorem GoodFrag.min_eq {f : PyNFA} (h : GoodFrag f) : f.min_node = 0 := by
  obtain ⟨t, ht, hz⟩ := h.has_zero
  have hle := min_node_le ht
  refine Nat.le_zero.mp ?_
  rcases hz with hz | hz
  · exact le_trans hle (hz ▸ Nat.min_le_left t.source t.dest)
  · exact le_trans hle (hz ▸ Nat.min_le_right t.source t.dest)

theorem GoodFrag.term_le_max {f : PyNFA} (h : GoodFrag f) : f.term ≤ f.max_node := by
  obtain ⟨t, ht, hz⟩ := h.has_term
  have hge := max_node_ge ht
  rcases hz with hz | hz
  · exact le_trans (hz ▸ Nat.le_max_left t.source t.dest) hge
  · exact le_trans (hz ▸ Nat.le_max_right t.source t.dest) hge

theorem GoodFrag.offset_pos {f : PyNFA} (h : GoodFrag f) : 1 ≤ f.concat_offset := by
  unfold PyNFA.concat_offset
  split
  · exact Nat.succ_le_succ (Nat.zero_le _)
  · exact le_trans h.term_pos h.term_le_max

theorem good_from_char (c : Char) : GoodFrag (PyNFA.from_char c) :=
  ⟨rfl, Nat.le_refl 1, by simp [PyNFA.from_char],
   ⟨⟨some c, 0, 1⟩, by simp [PyNFA.from_char], Or.inl rfl⟩,
   ⟨⟨some c, 0, 1⟩, by simp [PyNFA.from_char], Or.inr rfl⟩⟩

theorem good_concat {l r : PyNFA} (hl : GoodFrag l) (hr : GoodFrag r) :
    GoodFrag (l.concat r) := by
  have hk : 1 ≤ l.concat_offset := hl.offset_pos
  refine ⟨hl.start_eq, ?_, ?_, ?_, ?_⟩
  · show 1 ≤ r.term + l.concat_offset
    omega
  · show (l.replace_node l.term l.concat_offset).transitions ++
      ((r.add_offset l.concat_offset).replace_node l.start l.concat_offset).transitions ≠ []
    intro hc
    obtain ⟨h1, -⟩ := List.append_eq_nil.mp hc
    exact hl.ne_nil (List.map_eq_nil_iff.mp h1)
  · obtain ⟨t, ht, hz⟩ := hl.has_zero
    refine ⟨⟨t.lab, if t.source = l.term then l.concat_offset else t.source,
      if t.dest = l.term then l.concat_offset else t.dest⟩,
      List.mem_append_left _ (List.mem_map_of_mem _ ht), ?_⟩
    have hterm := hl.term_pos
    rcases hz with hz | hz
    · left
      show (if t.source = l.term then l.concat_offset else t.source) = 0
      rw [if_neg (by omega), hz]
    · right
      show (if t.dest = l.term then l.concat_offset else t.dest) = 0
      rw [if_neg (by omega), hz]
  · obtain ⟨t, ht, hz⟩ := hr.has_term
    refine ⟨⟨t.lab,
      if t.source + l.concat_offset = l.start then l.concat_offset
        else t.source + l.concat_offset,
      if t.dest + l.concat_offset = l.start then l.concat_offset
        else t.dest + l.concat_offset⟩,
      List.mem_append_right _ ?_, ?_⟩
    · exact List.mem_map_of_mem _ (List.mem_map_of_mem _ ht)
    · have hstart := hl.start_eq
      rcases hz with hz | hz
      · left
        show (if t.source + l.concat_offset = l.start then l.concat_offset
          else t.source + l.concat_offset) = r.term + l.concat_offset
        rw [if_neg (by omega), hz]
      · right
        show (if t.dest + l.concat_offset = l.start then l.concat_offset
          else t.dest + l.concat_offset) = r.term + l.concat_offset
        rw [if_neg (by omega), hz]

theorem good_append_new_term {f : PyNFA} (h : GoodFrag f) :
    GoodFrag f.append_new_term := by
  refine ⟨h.start_eq, Nat.succ_le_succ (Nat.zero_le _), by simp [PyNFA.append_new_term], ?_, ?_⟩
  · obtain ⟨t, ht, hz⟩ := h.has_zero
    exact ⟨t, List.mem_append_left _ ht, hz⟩
  · exact ⟨⟨none, f.term, f.max_node + 1⟩,
      List.mem_append_right _ (List.mem_singleton.mpr rfl), Or.inr rfl⟩

theorem good_prepend {f : PyNFA} (h : GoodFrag f) :
    GoodFrag f.prepend_new_start := by
  refine ⟨h.min_eq, ?_, ?_, ?_, ?_⟩
  · show 1 ≤ f.term + 1
    omega
  · show (f.add_offset 1).transitions ++ _ ≠ []
    simp
  · refine ⟨⟨none, f.min_node, f.start + 1⟩,
      List.mem_append_right _ (List.mem_singleton.mpr rfl), Or.inl h.min_eq⟩
  · obtain ⟨t, ht, hz⟩ := h.has_term
    refine ⟨⟨t.lab, t.source + 1, t.dest + 1⟩,
      List.mem_append_left _ (List.mem_map_of_mem _ ht), ?_⟩
    show t.source + 1 = f.term + 1 ∨ t.dest + 1 = f.term + 1
    omega

theorem good_disjunct {l d : PyNFA} (hl : GoodFrag l) :
    GoodFrag (l.disjunct d) := by
  have h2 := good_append_new_term (good_prepend hl)
  refine ⟨h2.start_eq, h2.term_pos, ?_, ?_, ?_⟩
  · show l.prepend_new_start.append_new_term.transitions ++ _ ++ _ ++ _ ≠ []
    intro hc
    obtain ⟨h1, -⟩ := List.append_eq_nil.mp hc
    obtain ⟨h1, -⟩ := List.append_eq_nil.mp h1
    obtain ⟨h1, -⟩ := List.append_eq_nil.mp h1
    exact h2.ne_nil h1
  · obtain ⟨t, ht, hz⟩ := h2.has_zero
    exact ⟨t, List.mem_append_left _ (List.mem_append_left _ (List.mem_append_left _ ht)), hz⟩
  · refine ⟨⟨none, (d.add_offset (l.prepend_new_start.append_new_term.term + 1)).term,
      l.prepend_new_start.append_new_term.term⟩,
      List.mem_append_left _ (List.mem_append_right _ (List.mem_singleton.mpr rfl)), Or.inr rfl⟩

theorem produced_good : ∀ {f : PyNFA}, Produced f → GoodFrag f := by
  intro f h
  induction h with
  | char c => exact good_from_char c
  | cat hl hr ihl ihr => exact good_concat ihl ihr
  | alt hl hr ihl ihr => exact good_disjunct ihl
  | star hf ihf =>
    rename_i f'
    refine ⟨ihf.start_eq, Nat.succ_le_succ (Nat.zero_le _), ?_, ?_, ?_⟩
    · show (f'.transitions ++ _) ++ _ ≠ []
      simp
    · obtain ⟨t, ht, hz⟩ := ihf.has_zero
      exact ⟨t, List.mem_append_left _ (List.mem_append_left _ ht), hz⟩
    · refine ⟨⟨none,
        ({ f' with transitions := f'.transitions ++
          [⟨none, f'.start, f'.term⟩, ⟨none, f'.term, f'.start⟩] } : PyNFA).term,
        ({ f' with transitions := f'.transitions ++
          [⟨none, f'.start, f'.term⟩, ⟨none, f'.term, f'.start⟩] } : PyNFA).max_node + 1⟩,
        List.mem_append_right _ (List.mem_singleton.mpr rfl), Or.inr rfl⟩

theorem replace_node_eq_self {f : PyNFA} {a b : Nat}
    (h : ∀ t ∈ f.transitions, t.source ≠ a ∧ t.dest ≠ a) :
    f.replace_node a b = f := by
  have hmap : f.transitions.map (fun t =>
      (⟨t.lab, if t.source = a then b else t.source,
        if t.dest = a then b else t.dest⟩ : Transition)) = f.transitions := by
    apply map_eq_self_of
    intro t ht
    obtain ⟨h1, h2⟩ := h t ht
    simp [h1, h2]
  unfold PyNFA.replace_node
  rw [hmap]

/-- Modelled from the claim's words for comparison, not from the source:
concatenation as claim C6 describes it, where the offset right fragment has
"its start becoming k" — i.e. the RIGHT fragment's own offset start is
renamed to the join point (the source instead renames nodes equal to the
LEFT fragment's start). -/
def PyNFA.concat_claimed (l r : PyNFA) : PyNFA :=
  let k := l.concat_offset
  let r1 := (r.add_offset k).replace_node (r.add_offset k).start k
  ⟨(l.replace_node l.term k).transitions ++ r1.transitions, l.start,
   (r.add_offset k).term⟩

/-- A fragment with nonzero start, breaking the claimed description of
`concat` when used as the right operand. -/
def bFrag : PyNFA := ⟨[⟨some 'b', 1, 2⟩], 1, 2⟩

/-! Claim theorems. -/

/-- C1 (code-bug evidence): for the `a*` NFA the initial DFA subset at index
0 is the epsilon closure of the NFA start and contains the NFA accept state,
yet index 0 is not recorded among the accept states — the source registers
the initial subset without the accept check, so "a DFA index is an accept
state iff its subset contains the NFA accept" fails at index 0 (the DFA for
`a*` wrongly rejects the empty string). -/
theorem to_dfa_initial_subset_accept_unrecorded :
    ∃ st : SubsetSt, aStar.to_dfa_full 20 = some st ∧
      st.new_states[0]? = some [0, 1, 2] ∧
      aStar.term ∈ ([0, 1, 2] : List Nat) ∧
      0 ∉ st.new_term_states ∧ st.new_term_states = [1] :=
  ⟨⟨[[0, 1, 2], [1, 0, 2]], [⟨some 'a', 0, 1⟩, ⟨some 'a', 1, 1⟩], [1], []⟩,
   by decide, by decide, by decide, by decide, by decide⟩

/-- C2 (counterexample): on input `a)` the top-level Disj succeeds with the
cursor not at end of input, and the top-level parse returns the partial AST
— it raises nothing; no TrailingInput error exists in the source. -/
theorem parse_trailing_input_returns_ast :
    RegexString.parse 20 ['a', ')'] =
      some (.ok (some (.rdisj [.rconcat [.rquality (.runity (some (.rchar 'a'))) none]]),
        ⟨['a', ')'], 1⟩)) ∧
    (⟨['a', ')'], 1⟩ : RegexString).is_eof = false :=
  ⟨rfl, rfl⟩

/-- C2 (amended): whenever the top-level Disj succeeds but the cursor is not
at end of input, the top-level parse returns that partial AST unchanged — it
performs no end-of-input check and raises no error. -/
theorem parse_returns_disj_result_on_trailing :
    ∀ (fuel : Nat) (s : List Char) (a : RegexAst) (b' : RegexString),
      RegDisj.from_buf fuel ⟨s, 0⟩ = some (.ok (some a, b')) →
      b'.is_eof = false →
      RegexString.parse fuel s = some (.ok (some a, b')) :=
  fun _ _ _ _ h _ => h

theorem parse_returns_disj_result_on_trailing_witness :
    RegexString.parse 20 ['a', ')'] =
      some (.ok (some (.rdisj [.rconcat [.rquality (.runity (some (.rchar 'a'))) none]]),
        ⟨['a', ')'], 1⟩)) :=
  parse_returns_disj_result_on_trailing 20 ['a', ')'] _ _ rfl rfl

/-- C3 (code-bug evidence): at end of input `RegChar.from_buf` reports
no-match without raising, but the cursor does NOT stay where it was: `pop`
returns the sentinel without advancing and `push_back` still rewinds, so on
the one-character source `a` the position drops from 1 (end of input) to 0. -/
theorem regchar_eof_rewinds_cursor :
    RegChar.from_buf ⟨['a'], 1⟩ = .ok (none, ⟨['a'], 0⟩) ∧
    (⟨['a'], 1⟩ : RegexString).is_eof = true ∧ (0 : Int) ≠ 1 :=
  ⟨rfl, rfl, by decide⟩

/-- C4 (counterexample): for the `a*` NFA, subset construction registers the
lists `[0,1,2]` (index 0) and `[1,0,2]` (index 1): two distinct DFA state
indices whose registered subsets are equal as sets of NFA states (and the
second is not sorted), because the registry compares Python lists. -/
theorem to_dfa_set_equal_subsets_twice :
    ∃ st : SubsetSt, aStar.to_dfa_full 20 = some st ∧
      st.new_states = [[0, 1, 2], [1, 0, 2]] ∧
      ([0, 1, 2] : List Nat).toFinset = ([1, 0, 2] : List Nat).toFinset ∧
      ([0, 1, 2] : List Nat) ≠ [1, 0, 2] :=
  ⟨⟨[[0, 1, 2], [1, 0, 2]], [⟨some 'a', 0, 1⟩, ⟨some 'a', 1, 1⟩], [1], []⟩,
   by decide, by decide, by decide, by decide⟩

/-- C4 (amended): what the registry actually guarantees, for every NFA: two
distinct DFA state indices are always registered with different Python
lists; registered lists are neither deduplicated nor canonically sorted, so
two distinct indices can still carry the same set of NFA states. -/
theorem to_dfa_states_nodup_as_lists :
    ∀ (nfa : PyNFA) (fuel : Nat) (st : SubsetSt),
      nfa.to_dfa_full fuel = some st → st.new_states.Nodup :=
  fun _ _ _ h => (to_dfa_full_inv h).states_nodup

theorem to_dfa_states_nodup_as_lists_witness :
    ([[0], [1]] : List (List Nat)).Nodup :=
  to_dfa_states_nodup_as_lists aChar 20
    ⟨[[0], [1]], [⟨some 'a', 0, 1⟩], [1], []⟩ (by decide)

/-- C5 (counterexample, by negation): the situation the claim asserts to
exist cannot arise in the source: an enumerated label of a subset always has
a witnessing transition out of that subset, so its move set is nonempty, and
no run of subset construction ever registers the empty subset. -/
theorem empty_move_subsets_never_arise :
    (∃ (nfa : PyNFA) (fuel : Nat) (st : SubsetSt) (S : List Nat) (l : Option Char),
      nfa.to_dfa_full fuel = some st ∧ S ∈ st.new_states ∧
      l ∈ nfa.get_moves_for_nodes S ∧ l ≠ none ∧
      nfa.move_on S l = [] ∧ [] ∈ st.new_states) = False := by
  simp only [eq_iff_iff, iff_false]
  rintro ⟨nfa, fuel, st, S, l, -, -, hl, -, hmv, -⟩
  exact move_on_ne_nil hl hmv

/-- C5 (amended): every enumerated label of every subset has a nonempty move
set, and the empty set is never registered as a DFA subset (so no transition
to a spurious empty subset is ever recorded). -/
theorem enumerated_moves_nonempty :
    (∀ (nfa : PyNFA) (S : List Nat) (l : Option Char),
      l ∈ nfa.get_moves_for_nodes S → nfa.move_on S l ≠ []) ∧
    (∀ (nfa : PyNFA) (fuel : Nat) (st : SubsetSt),
      nfa.to_dfa_full fuel = some st → [] ∉ st.new_states) :=
  ⟨fun _ _ _ hl => move_on_ne_nil hl,
   fun _ _ _ h hmem => (to_dfa_full_inv h).states_ne_nil [] hmem rfl⟩

theorem enumerated_moves_nonempty_witness :
    aStar.move_on [0] (some 'a') ≠ [] ∧
    ([] : List Nat) ∉ ([[0], [1]] : List (List Nat)) :=
  ⟨enumerated_moves_nonempty.1 aStar [0] (some 'a') (by decide),
   enumerated_moves_nonempty.2 aChar 20
     ⟨[[0], [1]], [⟨some 'a', 0, 1⟩], [1], []⟩ (by decide)⟩

/-- C6 (counterexample): with `bFrag` (start 1) as the right operand,
`concat` does not produce the transition set the claim describes: the source
renames nodes equal to the LEFT start inside the offset right fragment, not
the right fragment's start, so the offset right transition stays `b: 2→3`
instead of becoming `b: 1→3`. -/
theorem concat_differs_from_claimed :
    aChar.concat bFrag ≠ aChar.concat_claimed bFrag ∧
    aChar.concat bFrag = ⟨[⟨some 'a', 0, 1⟩, ⟨some 'b', 2, 3⟩], 0, 3⟩ ∧
    aChar.concat_claimed bFrag = ⟨[⟨some 'a', 0, 1⟩, ⟨some 'b', 1, 3⟩], 0, 3⟩ :=
  ⟨by decide, by decide, by decide⟩

/-- C6 (amended): what `concat` actually computes, for every pair whose left
transition list is nonempty (the source's `max()` raises otherwise): the
join offset k is `max_node` when that equals the left accept and
`max_node + 1` otherwise; the result has start = left's original start,
accept = right's accept after offsetting, and transitions = left's with the
accept renamed to k together with right's offset by k in which nodes equal
to LEFT's start are replaced by k. -/
theorem concat_description :
    ∀ l r : PyNFA, l.transitions ≠ [] →
      l.concat r =
        ⟨(l.replace_node l.term l.concat_offset).transitions ++
          ((r.add_offset l.concat_offset).replace_node l.start
            l.concat_offset).transitions,
         l.start, r.term + l.concat_offset⟩ :=
  fun _ _ _ => rfl

theorem concat_description_witness :
    aChar.concat bFrag =
      ⟨(aChar.replace_node aChar.term aChar.concat_offset).transitions ++
        ((bFrag.add_offset aChar.concat_offset).replace_node aChar.start
          aChar.concat_offset).transitions,
       aChar.start, bFrag.term + aChar.concat_offset⟩ :=
  concat_description aChar bFrag (by decide)

/-- C7 (counterexample): parsing the empty string raises nothing: the
top-level parse returns the falsy no-match value (`none`), with the cursor
position at -1 because the failing `Char` attempt pushed back past the
start; in particular it is not an error result. -/
theorem parse_empty_input_returns_falsy :
    RegexString.parse 20 [] = some (.ok (none, ⟨[], -1⟩)) ∧
    ∀ e : PErr, RegexString.parse 20 [] ≠ some (.error e) := by
  refine ⟨rfl, ?_⟩
  intro e h
  rw [show RegexString.parse 20 [] = some (.ok (none, ⟨[], -1⟩)) from rfl] at h
  exact Except.noConfusion (Option.some.inj h)

/-- C7 (amended): whenever the top-level Disj matches nothing, the top-level
parse returns the no-match value `False` (here `none`) rather than raising;
no EmptyInput error exists in the source. -/
theorem parse_no_match_returns_falsy :
    ∀ (fuel : Nat) (s : List Char) (b' : RegexString),
      RegDisj.from_buf fuel ⟨s, 0⟩ = some (.ok (none, b')) →
      RegexString.parse fuel s = some (.ok (none, b')) :=
  fun _ _ _ h => h

theorem parse_no_match_returns_falsy_witness :
    RegexString.parse 20 [] = some (.ok (none, ⟨[], -1⟩)) :=
  parse_no_match_returns_falsy 20 [] ⟨[], -1⟩ rfl

/-- C8: whenever a `(` is consumed and, after the inner Disj parse, the next
pop is not `)`, `RegGroup.from_buf` raises the unclosed-group error
(`ValueError("no closing ) for group")`, the spec's UnclosedGroup); in
particular the top-level parse of the single character `(` raises it. -/
theorem unclosed_group_raises :
    (∀ (fuel : Nat) (b b1 : RegexString) (d : Option RegexAst) (b2 : RegexString)
        (c2 : Option Char) (b3 : RegexString),
      b.pop = .ok (some '(', b1) →
      RegDisj.from_buf fuel b1 = some (.ok (d, b2)) →
      b2.pop = .ok (c2, b3) →
      c2 ≠ some ')' →
      RegGroup.from_buf (fuel + 1) b = some (.error .unclosedGroup)) ∧
    RegexString.parse 20 ['('] = some (.error .unclosedGroup) := by
  constructor
  · intro fuel b b1 d b2 c2 b3 h1 h2 h3 h4
    simp [RegGroup.from_buf, h1, h2, h3, h4]
  · rfl

theorem unclosed_group_raises_witness :
    RegGroup.from_buf 19 ⟨['('], 0⟩ = some (.error .unclosedGroup) :=
  unclosed_group_raises.1 18 ⟨['('], 0⟩ ⟨['('], 1⟩ none ⟨['('], 0⟩ (some '(')
    ⟨['('], 1⟩ rfl rfl rfl (by decide)

/-- C9: every DFA produced by `to_dfa` has no epsilon-labeled transition,
and no two recorded transitions share both source state and label (at most
one transition per state-and-label pair). -/
theorem to_dfa_deterministic_no_eps :
    ∀ (nfa : PyNFA) (fuel : Nat) (dfa : PyDFA), nfa.to_dfa fuel = some dfa →
      (∀ t ∈ dfa.transitions, t.lab ≠ none) ∧ dfa.transitions.Pairwise DetProp := by
  intro nfa fuel dfa h
  unfold PyNFA.to_dfa at h
  cases hfull : nfa.to_dfa_full fuel with
  | none => rw [hfull] at h; exact absurd h (by simp)
  | some st =>
    rw [hfull] at h
    simp only [Option.map_some', Option.some.injEq] at h
    have hinv := to_dfa_full_inv hfull
    rw [← h]
    exact ⟨hinv.lab_ne, hinv.det⟩

theorem to_dfa_deterministic_no_eps_witness :
    (∀ t ∈ ([⟨some 'a', 0, 1⟩] : List Transition), t.lab ≠ none) ∧
    ([⟨some 'a', 0, 1⟩] : List Transition).Pairwise DetProp :=
  to_dfa_deterministic_no_eps aChar 20 ⟨[⟨some 'a', 0, 1⟩], 0, [1]⟩ (by decide)

/-- C10: every fragment produced by the fragment algebra has start 0, which
is also its minimal state number; consequently, inside `concat`, offsetting
alone makes the right fragment's start equal to the join point k, and the
`right.replace_node(self.start, offset)` call leaves the offset right
fragment entirely unchanged (no node equals the left start 0 after the
offset). -/
theorem fragment_start_zero_and_min :
    (∀ f : PyNFA, Produced f → f.start = 0 ∧ f.min_node = 0) ∧
    (∀ l r : PyNFA, Produced l → Produced r →
      (r.add_offset l.concat_offset).start = l.concat_offset ∧
      (r.add_offset l.concat_offset).replace_node l.start l.concat_offset =
        r.add_offset l.concat_offset) := by
  constructor
  · intro f hf
    have h := produced_good hf
    exact ⟨h.start_eq, h.min_eq⟩
  · intro l r hl hr
    have hgl := produced_good hl
    have hgr := produced_good hr
    have hk : 1 ≤ l.concat_offset := hgl.offset_pos
    constructor
    · show r.start + l.concat_offset = l.concat_offset
      rw [hgr.start_eq]
      exact Nat.zero_add _
    · apply replace_node_eq_self
      intro t ht
      simp only [PyNFA.add_offset, List.mem_map] at ht
      obtain ⟨u, hu, hut⟩ := ht
      rw [← hut, hgl.start_eq]
      refine ⟨?_, ?_⟩
      · show u.source + l.concat_offset ≠ 0
        omega
      · show u.dest + l.concat_offset ≠ 0
        omega

theorem fragment_start_zero_and_min_witness :
    ((PyNFA.from_char 'a').start = 0 ∧ (PyNFA.from_char 'a').min_node = 0) ∧
    ((PyNFA.from_char 'b').add_offset (PyNFA.from_char 'a').concat_offset).start =
      (PyNFA.from_char 'a').concat_offset :=
  ⟨fragment_start_zero_and_min.1 (PyNFA.from_char 'a') (Produced.char 'a'),
   (fragment_start_zero_and_min.2 (PyNFA.from_char 'a') (PyNFA.from_char 'b')
     (Produced.char 'a') (Produced.char 'b')).1⟩
